import Mathlib

/-!
Verification development for the vendor-tree synchronization engine
(`file/file.go` of GannettDigital/vend).

The filesystem is modelled as an association list from absolute paths
(lists of name segments, rooted at "/") to nodes (regular file with its
byte content, symbolic link, or directory).  Fatal errors raised through
`output.OnError` / `output.Fatal` are modelled as `none` results; the
recoverable errors of `os.Remove` are modelled as an explicit error type.
Modification times used by the staleness check are supplied as explicit
inputs (`os.Stat` results taken at the start of the run).
-/

namespace Vend

/-- Absolute or relative path, as a list of name segments. -/
abbrev FPath := List String

/-- Filesystem node: regular file (with content), symbolic link, or directory. -/
inductive Node where
  | file (content : String)
  | symlink
  | dir
deriving DecidableEq

/-- Filesystem state: association list from paths to nodes. -/
abbrev Fs := List (FPath × Node)

/-- Association-list lookup of a path. -/
def lookupFs : Fs → FPath → Option Node
  | [], _ => none
  | (q, n) :: rest, p => if q = p then some n else lookupFs rest p

/-- Remove every entry with the exact key `p`. -/
def eraseKey : Fs → FPath → Fs
  | [], _ => []
  | (q, n) :: rest, p => if q = p then eraseKey rest p else (q, n) :: eraseKey rest p

/-- Set the node at path `p`, replacing any previous entry. -/
def setEntry (fs : Fs) (p : FPath) (n : Node) : Fs :=
  (p, n) :: eraseKey fs p

/-- Model of the `exists` helper (`os.Stat` succeeding): an entry is present. -/
def existsStat (fs : Fs) (p : FPath) : Bool :=
  (lookupFs fs p).isSome

/-- Whether some entry lies strictly below `p` (a directory is non-empty). -/
def hasStrictExt (fs : Fs) (p : FPath) : Bool :=
  fs.any (fun e => p.isPrefixOf e.1 && decide (e.1 ≠ p))

/-- Recoverable errors of `os.Remove`. -/
inductive RmErr where
  | enoent
  | enotempty
deriving DecidableEq

/-- Model of `os.Remove`: fails with ENOENT when the path is absent and with
ENOTEMPTY when it is a non-empty directory; otherwise deletes the entry. -/
def removeFs (fs : Fs) (p : FPath) : Except RmErr Fs :=
  match lookupFs fs p with
  | none => .error .enoent
  | some .dir => if hasStrictExt fs p then .error .enotempty else .ok (eraseKey fs p)
  | some (.file _) => .ok (eraseKey fs p)
  | some .symlink => .ok (eraseKey fs p)

/-- Model of `os.RemoveAll`: delete the entry at `p` and everything below it. -/
def removeAllFs : Fs → FPath → Fs
  | [], _ => []
  | (q, n) :: rest, p =>
    if p.isPrefixOf q then removeAllFs rest p else (q, n) :: removeAllFs rest p

/-- Render an absolute path as a string ("/a/b"); the root renders as "/". -/
def renderAbs (p : FPath) : String :=
  if p = [] then "/" else p.foldl (fun acc s => acc ++ "/" ++ s) ""

/-- Model of `strings.HasSuffix`. -/
def goHasSuffix (s suffix : String) : Bool :=
  suffix.data.isSuffixOf s.data

/-- Model of `strings.HasPrefix`. -/
def goHasPrefix (s pre : String) : Bool :=
  pre.data.isPrefixOf s.data

/-- Model of `path.Join(base, p)` for a clean absolute `base`: append the
segments of `p`, resolving "." and ".." segments the way `path.Clean` does. -/
def vendPath (base : FPath) (p : FPath) : FPath :=
  p.foldl (fun acc s => if s = "." then acc else if s = ".." then acc.dropLast else acc ++ [s]) base

/-- Model of the `removeAll` wrapper: fatal (`none`) when the rendered path is
byte-shorter than the rendered base path, else `os.RemoveAll`. -/
def removeAllM (base : FPath) (fs : Fs) (p : FPath) : Option Fs :=
  if (renderAbs p).length < (renderAbs base).length then none
  else some (removeAllFs fs p)

/-- Helper for `mkdirAllFs`: create each missing segment of `segs` below
`base` as a directory; fatal (`none`) if an existing entry is not a directory. -/
def mkdirAllFrom (fs : Fs) (base : FPath) : List String → Option Fs
  | [] => some fs
  | s :: rest =>
    match lookupFs fs (base ++ [s]) with
    | some .dir => mkdirAllFrom fs (base ++ [s]) rest
    | none => mkdirAllFrom (setEntry fs (base ++ [s]) .dir) (base ++ [s]) rest
    | some _ => none

/-- Model of `os.MkdirAll`: create the directory at `p` and every missing
ancestor; error when an existing ancestor is not a directory. -/
def mkdirAllFs (fs : Fs) (p : FPath) : Option Fs :=
  mkdirAllFrom fs [] p

/-- Model of `ioutil.ReadFile`: the byte content if the entry is a regular file. -/
def readFileFs (fs : Fs) (p : FPath) : Option String :=
  match lookupFs fs p with
  | some (.file c) => some c
  | _ => none

/-- Model of `ioutil.WriteFile`: create or truncate the regular file at `p`. -/
def writeFileFs (fs : Fs) (p : FPath) (c : String) : Fs :=
  setEntry fs p (.file c)

/-- Model of `clear`: remember the bytes of `modules.txt` if present, remove
the whole base directory, recreate it, and restore the remembered bytes.
A failing read of an existing sentinel, a refused `removeAll`, and a failing
`MkdirAll` are all fatal (`none`). -/
def clearM (base : FPath) (fs : Fs) : Option Fs :=
  let mtxt := vendPath base ["modules.txt"]
  let haveModFile := existsStat fs mtxt
  ((if haveModFile then (readFileFs fs mtxt).map some else some none : Option (Option String))).bind
    fun content? =>
      (removeAllM base fs base).bind fun fs1 =>
        (mkdirAllFs fs1 base).bind fun fs2 =>
          match content? with
          | some c => some (writeFileFs fs2 mtxt c)
          | none => some fs2

/-! ### Basic lemmas about the filesystem primitives -/

theorem isPrefixOf_eq {α : Type} [BEq α] [LawfulBEq α] (l1 l2 : List α) :
    l1.isPrefixOf l2 = true ↔ l1 <+: l2 :=
  List.isPrefixOf_iff_prefix

theorem dropLast_isPre {α : Type} (l : List α) : l.dropLast <+: l :=
  List.dropLast_prefix l

theorem lookup_eraseKey (fs : Fs) (p q : FPath) :
    lookupFs (eraseKey fs p) q = if q = p then none else lookupFs fs q := by
  induction fs with
  | nil => simp [eraseKey, lookupFs]
  | cons e rest ih =>
    obtain ⟨r, n⟩ := e
    by_cases hrp : r = p
    · subst hrp
      by_cases hqp : q = r
      · subst hqp
        simp [eraseKey, lookupFs, ih]
      · simp [eraseKey, lookupFs, hqp, ih, Ne.symm hqp]
    · by_cases hrq : r = q
      · subst hrq
        simp [eraseKey, lookupFs, hrp, ih]
      · simp [eraseKey, lookupFs, hrp, hrq, ih]

theorem lookup_setEntry (fs : Fs) (p q : FPath) (n : Node) :
    lookupFs (setEntry fs p n) q = if q = p then some n else lookupFs fs q := by
  by_cases h : q = p
  · simp [setEntry, lookupFs, h]
  · simp [setEntry, lookupFs, h, Ne.symm h, lookup_eraseKey]

theorem lookup_isSome_of_mem (fs : Fs) (e : FPath × Node) (h : e ∈ fs) :
    (lookupFs fs e.1).isSome := by
  induction fs with
  | nil => cases h
  | cons f rest ih =>
    obtain ⟨r, n⟩ := f
    rcases List.mem_cons.mp h with h | h
    · subst h
      simp [lookupFs]
    · by_cases hr : r = e.1 <;> simp [lookupFs, hr, ih h]

theorem mem_of_lookup_some (fs : Fs) (p : FPath) (n : Node)
    (h : lookupFs fs p = some n) : (p, n) ∈ fs := by
  induction fs with
  | nil => simp [lookupFs] at h
  | cons f rest ih =>
    obtain ⟨r, m⟩ := f
    by_cases hr : r = p
    · subst hr
      simp [lookupFs] at h
      simp [h]
    · simp [lookupFs, hr] at h
      exact List.mem_cons_of_mem _ (ih h)

theorem hasStrictExt_false_iff (fs : Fs) (p : FPath) :
    hasStrictExt fs p = false ↔ ∀ q, p <+: q → q ≠ p → lookupFs fs q = none := by
  constructor
  · intro h q hpre hne
    by_contra hsome
    obtain ⟨n, hn⟩ := Option.ne_none_iff_exists'.mp hsome
    have hmem := mem_of_lookup_some fs q n hn
    have : fs.any (fun e => p.isPrefixOf e.1 && decide (e.1 ≠ p)) = true := by
      refine List.any_eq_true.mpr ⟨(q, n), hmem, ?_⟩
      simp [(isPrefixOf_eq _ _).mpr hpre, hne]
    rw [hasStrictExt] at h
    rw [this] at h
    cases h
  · intro h
    rw [hasStrictExt]
    by_contra hany
    simp only [Bool.not_eq_false, List.any_eq_true] at hany
    obtain ⟨e, hmem, he⟩ := hany
    simp only [Bool.and_eq_true, decide_eq_true_eq] at he
    have hnone := h e.1 ((isPrefixOf_eq _ _).mp he.1) he.2
    have hsome := lookup_isSome_of_mem fs e hmem
    rw [hnone] at hsome
    cases hsome

theorem lookup_removeAllFs (fs : Fs) (p q : FPath) :
    lookupFs (removeAllFs fs p) q = if p <+: q then none else lookupFs fs q := by
  induction fs with
  | nil => simp [removeAllFs, lookupFs]
  | cons e rest ih =>
    obtain ⟨r, n⟩ := e
    by_cases hpr : p.isPrefixOf r
    · have hpr' : p <+: r := (isPrefixOf_eq _ _).mp hpr
      by_cases hrq : r = q
      · subst hrq
        simp [removeAllFs, hpr, ih, hpr']
      · simp [removeAllFs, hpr, ih, lookupFs, hrq]
    · have hpr' : ¬ p <+: r := fun h => hpr ((isPrefixOf_eq _ _).mpr h)
      by_cases hrq : r = q
      · subst hrq
        simp [removeAllFs, hpr, lookupFs, hpr']
      · simp [removeAllFs, hpr, lookupFs, hrq, ih]

theorem mkdirAllFrom_touch (segs : List String) :
    ∀ (fs : Fs) (base : FPath) (fs' : Fs), mkdirAllFrom fs base segs = some fs' →
    ∀ q, lookupFs fs' q = lookupFs fs q ∨
      (lookupFs fs q = none ∧ lookupFs fs' q = some .dir ∧
        base <+: q ∧ q ≠ base ∧ q <+: base ++ segs) := by
  induction segs with
  | nil =>
    intro fs base fs' h q
    simp [mkdirAllFrom] at h
    subst h
    exact Or.inl rfl
  | cons s rest ih =>
    intro fs base fs' h q
    rw [mkdirAllFrom] at h
    have hstep : base <+: base ++ [s] := ⟨[s], rfl⟩
    have hne : base ++ [s] ≠ base := by
      intro heq
      have := congrArg List.length heq
      simp at this
    match hl : lookupFs fs (base ++ [s]) with
    | some .dir =>
      rw [hl] at h
      rcases ih fs (base ++ [s]) fs' h q with h1 | ⟨h1, h2, h3, h4, h5⟩
      · exact Or.inl h1
      · refine Or.inr ⟨h1, h2, hstep.trans h3, ?_, ?_⟩
        · intro hq
          subst hq
          exact absurd (h3.eq_of_length_le (by simp)) hne
        · simpa using h5
    | none =>
      rw [hl] at h
      rcases ih _ (base ++ [s]) fs' h q with h1 | ⟨h1, h2, h3, h4, h5⟩
      · rw [lookup_setEntry] at h1
        by_cases hq : q = base ++ [s]
        · subst hq
          rw [if_pos rfl] at h1
          exact Or.inr ⟨hl, h1, hstep, hne, ⟨rest, by simp⟩⟩
        · rw [if_neg hq] at h1
          exact Or.inl h1
      · rw [lookup_setEntry] at h1
        by_cases hq : q = base ++ [s]
        · subst hq
          rw [if_pos rfl] at h1
          cases h1
        · rw [if_neg hq] at h1
          refine Or.inr ⟨h1, h2, hstep.trans h3, ?_, ?_⟩
          · intro hqb
            subst hqb
            exact absurd (h3.eq_of_length_le (by simp)) hne
          · simpa using h5
    | some (.file c) =>
      rw [hl] at h
      cases h
    | some .symlink =>
      rw [hl] at h
      cases h

theorem mkdirAllFrom_creates (segs : List String) :
    ∀ (fs : Fs) (base : FPath) (fs' : Fs), mkdirAllFrom fs base segs = some fs' →
    ∀ pre suf, segs = pre ++ suf → pre ≠ [] →
    lookupFs fs' (base ++ pre) = some .dir := by
  induction segs with
  | nil =>
    intro fs base fs' h pre suf hps hpre
    have : pre = [] := by
      cases pre with
      | nil => rfl
      | cons a l => simp at hps
    exact absurd this hpre
  | cons s rest ih =>
    intro fs base fs' h pre suf hps hpre
    rw [mkdirAllFrom] at h
    cases pre with
    | nil => exact absurd rfl hpre
    | cons p0 pre' =>
      have hps' : s = p0 ∧ rest = pre' ++ suf := by
        rw [List.cons_append] at hps
        exact ⟨(List.cons.injEq _ _ _ _ ▸ hps).1, (List.cons.injEq _ _ _ _ ▸ hps).2⟩
      obtain ⟨hp0, hrest⟩ := hps'
      subst hp0
      match hl : lookupFs fs (base ++ [s]) with
      | some .dir =>
        rw [hl] at h
        cases pre' with
        | nil =>
          rcases mkdirAllFrom_touch rest fs (base ++ [s]) fs' h (base ++ [s]) with h1 | ⟨h1, _⟩
          · rw [h1]
            simpa using hl
          · rw [hl] at h1
            cases h1
        | cons a l =>
          have := ih fs (base ++ [s]) fs' h (a :: l) suf hrest (by simp)
          simpa [List.append_assoc] using this
      | none =>
        rw [hl] at h
        cases pre' with
        | nil =>
          rcases mkdirAllFrom_touch rest _ (base ++ [s]) fs' h (base ++ [s]) with h1 | ⟨h1, _⟩
          · rw [h1, lookup_setEntry, if_pos rfl]
          · rw [lookup_setEntry, if_pos rfl] at h1
            cases h1
        | cons a l =>
          have := ih _ (base ++ [s]) fs' h (a :: l) suf hrest (by simp)
          simpa [List.append_assoc] using this
      | some (.file c) =>
        rw [hl] at h
        cases h
      | some .symlink =>
        rw [hl] at h
        cases h

theorem mkdirAll_lookup_self (fs : Fs) (p : FPath) (fs' : Fs)
    (hp : p ≠ []) (h : mkdirAllFs fs p = some fs') :
    lookupFs fs' p = some .dir := by
  have := mkdirAllFrom_creates p fs [] fs' h p [] (by simp) hp
  simpa using this

theorem mkdirAll_touch (fs : Fs) (p : FPath) (fs' : Fs)
    (h : mkdirAllFs fs p = some fs') :
    ∀ q, lookupFs fs' q = lookupFs fs q ∨
      (lookupFs fs q = none ∧ lookupFs fs' q = some .dir ∧ q ≠ [] ∧ q <+: p) := by
  intro q
  rcases mkdirAllFrom_touch p fs [] fs' h q with h1 | ⟨h1, h2, _, h4, h5⟩
  · exact Or.inl h1
  · exact Or.inr ⟨h1, h2, h4, by simpa using h5⟩

theorem vendPath_clean (p : FPath) :
    ∀ base : FPath, (∀ s ∈ p, s ≠ "." ∧ s ≠ "..") → vendPath base p = base ++ p := by
  induction p with
  | nil => intro base _; simp [vendPath]
  | cons s rest ih =>
    intro base hclean
    have hs := hclean s (by simp)
    have hrest : ∀ t ∈ rest, t ≠ "." ∧ t ≠ ".." := fun t ht => hclean t (by simp [ht])
    have : vendPath base (s :: rest) = vendPath (base ++ [s]) rest := by
      simp [vendPath, List.foldl_cons, hs.1, hs.2]
    rw [this, ih (base ++ [s]) hrest]
    simp

/-! ### C2: sentinel preservation across the reset -/

/-- C2: if the sentinel file `modules.txt` exists at the vendor root with byte
content `X` before the run, then after the run's reset (`clear`) it exists with
exactly content `X`; if it did not exist before, the reset does not create it. -/
theorem c2_sentinel_preserved (base : FPath) (fs fs' : Fs) (X : String) :
    (lookupFs fs (vendPath base ["modules.txt"]) = some (.file X) →
      clearM base fs = some fs' →
      lookupFs fs' (vendPath base ["modules.txt"]) = some (.file X)) ∧
    (lookupFs fs (vendPath base ["modules.txt"]) = none →
      clearM base fs = some fs' →
      lookupFs fs' (vendPath base ["modules.txt"]) = none) := by
  have hmtxt : vendPath base ["modules.txt"] = base ++ ["modules.txt"] := by
    apply vendPath_clean
    intro s hs
    simp only [List.mem_singleton] at hs
    subst hs
    exact ⟨by decide, by decide⟩
  constructor
  · intro hfile hclear
    rw [clearM] at hclear
    simp only [existsStat, hfile, Option.isSome_some, if_pos, readFileFs,
      Option.map_some', Option.some_bind] at hclear
    match hrm : removeAllM base fs base with
    | none => rw [hrm] at hclear; cases hclear
    | some fs1 =>
      rw [hrm] at hclear
      simp only [Option.some_bind] at hclear
      match hmk : mkdirAllFs fs1 base with
      | none => rw [hmk] at hclear; cases hclear
      | some fs2 =>
        rw [hmk] at hclear
        simp only [Option.some_bind, Option.some.injEq] at hclear
        subst hclear
        rw [writeFileFs, lookup_setEntry, if_pos rfl]
  · intro hnone hclear
    rw [clearM] at hclear
    simp only [existsStat, hnone, Option.isSome_none, Bool.false_eq_true, if_neg,
      reduceCtorEq, not_false_eq_true, Option.some_bind] at hclear
    match hrm : removeAllM base fs base with
    | none => rw [hrm] at hclear; cases hclear
    | some fs1 =>
      rw [hrm] at hclear
      simp only [Option.some_bind] at hclear
      match hmk : mkdirAllFs fs1 base with
      | none => rw [hmk] at hclear; cases hclear
      | some fs2 =>
        rw [hmk] at hclear
        simp only [Option.some_bind, Option.some.injEq] at hclear
        subst hclear
        have hfs1 : lookupFs fs1 (vendPath base ["modules.txt"]) = none := by
          rw [removeAllM] at hrm
          split at hrm
          · cases hrm
          · simp only [Option.some.injEq] at hrm
            subst hrm
            rw [lookup_removeAllFs, hmtxt, if_pos ⟨["modules.txt"], rfl⟩]
        rcases mkdirAll_touch fs1 base fs2 hmk (vendPath base ["modules.txt"]) with h1 | ⟨_, _, _, h4⟩
        · rw [h1, hfs1]
        · exfalso
          rw [hmtxt] at h4
          have := h4.length_le
          simp at this

/-- Witness for `c2_sentinel_preserved` at a concrete filesystem holding a
sentinel with content "X" next to another file. -/
theorem c2_sentinel_preserved_witness :
    lookupFs ((clearM ["v"] [(["v"], .dir), (["v", "modules.txt"], .file "X"),
      (["v", "a"], .file "y")]).getD []) (vendPath ["v"] ["modules.txt"]) =
      some (.file "X") :=
  (c2_sentinel_preserved ["v"]
    [(["v"], .dir), (["v", "modules.txt"], .file "X"), (["v", "a"], .file "y")]
    ((clearM ["v"] [(["v"], .dir), (["v", "modules.txt"], .file "X"),
      (["v", "a"], .file "y")]).getD []) "X").1 rfl rfl

/-! ### The tree copier -/

mutual
/-- Snapshot of a source filesystem subtree, as read by the copier. -/
inductive FTree where
  | file (content : String)
  | symlink
  | dir (entries : FEntries)

/-- Named entries of a source directory, in traversal order. -/
inductive FEntries where
  | nil
  | cons (name : String) (t : FTree) (rest : FEntries)
end

/-- Model of `copyFile`: create the parent directories of `dest`, then create
or truncate the destination file with the source content. -/
def copyFileM (fs : Fs) (c : String) (dest : FPath) : Option Fs :=
  (mkdirAllFs fs dest.dropLast).bind fun fs1 =>
    match lookupFs fs1 dest with
    | some .dir => none
    | _ => some (setEntry fs1 dest (.file c))

mutual
/-- Model of `copy`: symbolic links are skipped and report `false`;
directories are copied by `copyChildren` (with the filtered-empty prune);
regular files are copied when no filter is set or the filter matches the
rendered full destination path.  The second component reports whether
anything was copied. -/
def copyNode (filt : Option (String → Bool)) : FTree → FPath → Fs → Option (Fs × Bool)
  | .symlink, _, fs => some (fs, false)
  | .dir es, dest, fs =>
    (mkdirAllFs fs dest).bind fun fs1 =>
      (copyChildren filt es dest fs1).bind fun r =>
        if !r.2 && filt.isSome then
          match removeFs r.1 dest with
          | .ok fs3 => some (fs3, false)
          | .error _ => none
        else some r
  | .file c, dest, fs =>
    match filt with
    | none => (copyFileM fs c dest).map fun f => (f, true)
    | some m =>
      if m (renderAbs dest) then (copyFileM fs c dest).map fun f => (f, true)
      else some (fs, false)

/-- Model of the child loop of `copyDirectory`: copy every entry below
`dest`, accumulating whether any child copy reported `true`. -/
def copyChildren (filt : Option (String → Bool)) : FEntries → FPath → Fs → Option (Fs × Bool)
  | .nil, _, fs => some (fs, false)
  | .cons nm t rest, dest, fs =>
    (copyNode filt t (dest ++ [nm]) fs).bind fun r1 =>
      (copyChildren filt rest dest r1.1).bind fun r2 =>
        some (r2.1, r1.2 || r2.2)
end

/-- Names of the entries directly below `p`. -/
def childNames (fs : Fs) (p : FPath) : List String :=
  fs.filterMap fun e =>
    if e.1.length = p.length + 1 then (if p.isPrefixOf e.1 then e.1.getLast? else none)
    else none

/-- Build snapshot entries from a list of named subtrees. -/
def listToEntries : List (String × FTree) → FEntries
  | [] => .nil
  | (nm, t) :: rest => .cons nm t (listToEntries rest)

/-- Read the subtree of the filesystem at `p` as a snapshot tree; `none` when
no entry exists at `p` (an `os.Lstat` failure) or the fuel is exhausted. -/
def toTree : Nat → Fs → FPath → Option FTree
  | 0, _, _ => none
  | fuel + 1, fs, p =>
    match lookupFs fs p with
    | none => none
    | some (.file c) => some (.file c)
    | some .symlink => some .symlink
    | some .dir =>
      some (.dir (listToEntries ((childNames fs p).filterMap fun nm =>
        (toTree fuel fs (p ++ [nm])).map fun t => (nm, t))))

/-- Fuel bound sufficient to read any subtree of `fs` in full. -/
def fsFuel (fs : Fs) : Nat :=
  fs.foldl (fun a e => max a e.1.length) 0 + 1

/-- Model of the top of `copy`: `os.Lstat` the source (fatal when absent),
snapshot it, and run the copier against the destination path. -/
def copyM (filt : Option (String → Bool)) (fuel : Nat) (fs : Fs) (src dest : FPath) :
    Option (Fs × Bool) :=
  match toTree fuel fs src with
  | none => none
  | some t => copyNode filt t dest fs

/-! ### The ancestor-pruning walk -/

/-- Outcome of one `os.Remove` call as seen by the pruning loop. -/
inductive RmRes where
  | ok
  | enoent
  | enotempty
  | other
deriving DecidableEq

/-- The successive values of the loop variable `p` of the pruning loop: the
dependency path, then its parent (`filepath.Dir`, i.e. `dropLast` for a clean
relative path), and so on, stopping before the "." marker (empty list). -/
def chainList (segs : List String) : List (List String) :=
  (List.range segs.length).reverse.map fun i => segs.take (i + 1)

/-- Body of the ancestor-pruning loop, iterating over the precomputed chain
of loop values: remove each path; ENOENT continues the walk, ENOTEMPTY breaks
out, any other error is fatal (`none`).  Also returns the trace of relative
paths whose removal was attempted. -/
def pruneLoopGo {σ : Type} (rm : σ → List String → σ × RmRes) :
    σ → List (List String) → Option σ × List (List String)
  | st, [] => (some st, [])
  | st, p :: rest =>
    match rm st p with
    | (st1, .ok) =>
      let r := pruneLoopGo rm st1 rest
      (r.1, p :: r.2)
    | (st1, .enoent) =>
      let r := pruneLoopGo rm st1 rest
      (r.1, p :: r.2)
    | (st1, .enotempty) => (some st1, [p])
    | (_, .other) => (none, [p])

/-- Model of the ancestor-pruning loop of `CopyDependencies` for a clean
relative dependency path, rendered over the chain of loop values. -/
def pruneLoop {σ : Type} (rm : σ → List String → σ × RmRes)
    (st : σ) (segs : List String) : Option σ × List (List String) :=
  pruneLoopGo rm st (chainList segs)

/-- The removal primitive used by the real run: `os.Remove` on the vendored
path, with its two recoverable errors mapped to the loop's outcomes. -/
def rmStep (base : FPath) (fs : Fs) (p : List String) : Fs × RmRes :=
  match removeFs fs (vendPath base p) with
  | .ok f => (f, .ok)
  | .error .enoent => (fs, .enoent)
  | .error .enotempty => (fs, .enotempty)

/-! ### The vendor-tree manager -/

/-- Raw path as written in `go.mod` (rooted flag plus segments). -/
structure GoPath where
  rooted : Bool
  segs : List String
deriving DecidableEq

/-- One `replace` rule of `go.mod`. -/
structure ReplRule where
  old : GoPath
  new : GoPath

/-- The parsed module file: `none` models a nil `Replace` slice. -/
structure GoMod where
  replace : Option (List ReplRule)

/-- One resolved dependency: its module path (destination-relative segments)
and the absolute path of its source directory in the module cache. -/
structure Dep where
  path : List String
  dir : FPath

/-- Run configuration: vendor base path, working directory, optional filter
(the semantics of the compiled pattern's `MatchString`), and the stat results
taken by the staleness check (`none` for `goModTime` models a failing stat;
`none` for `baseTime` models an absent destination). -/
structure RunCfg where
  base : FPath
  cwd : FPath
  filt : Option (String → Bool)
  goModTime : Option Nat
  baseTime : Option Nat

/-- Resolve a raw path against the working directory (absolute paths stand
alone; relative ones are joined to the working directory). -/
def resolvePath (cwd : FPath) (p : GoPath) : FPath :=
  if p.rooted then vendPath [] p.segs else vendPath cwd p.segs

/-- Model of one dependency iteration: copy the cache directory to the
vendored path; when nothing was copied and a filter is active, run the
ancestor-pruning walk. -/
def depStep (cfg : RunCfg) (fs : Fs) (d : Dep) : Option Fs :=
  match copyM cfg.filt (fsFuel fs) fs d.dir (vendPath cfg.base d.path) with
  | none => none
  | some (fs1, copied) =>
    if !copied && cfg.filt.isSome then (pruneLoop (rmStep cfg.base) fs1 d.path).1
    else some fs1

/-- Model of one `replace` iteration: rules whose two sides are equal are
skipped; when the vendored new path exists its contents are copied to the
vendored old path and then removed entirely; otherwise the new path is a
local directory copied in directly. -/
def applyReplace (cfg : RunCfg) (fs : Fs) (r : ReplRule) : Option Fs :=
  if r.old = r.new then some fs
  else
    let newPath := vendPath cfg.base r.new.segs
    let oldPath := vendPath cfg.base r.old.segs
    if existsStat fs newPath then
      (copyM cfg.filt (fsFuel fs) fs newPath oldPath).bind fun r1 =>
        removeAllM cfg.base r1.1 newPath
    else
      (copyM cfg.filt (fsFuel fs) fs (resolvePath cfg.cwd r.new) oldPath).map (·.1)

/-- The dependency phase: all dependency copies, in list order. -/
def depsPhase (cfg : RunCfg) (deps : List Dep) (fs : Fs) : Option Fs :=
  deps.foldlM (depStep cfg) fs

/-- The redirection phase: all `replace` rules, in table order. -/
def replacePhase (cfg : RunCfg) (mod : GoMod) (fs : Fs) : Option Fs :=
  match mod.replace with
  | none => some fs
  | some rs => rs.foldlM (applyReplace cfg) fs

/-- Everything `CopyDependencies` does once the staleness check has decided
to run: reset, dependency copies, then redirection rules. -/
def runBody (cfg : RunCfg) (mod : GoMod) (deps : List Dep) (fs : Fs) : Option Fs :=
  (clearM cfg.base fs).bind fun fs1 =>
    (depsPhase cfg deps fs1).bind fun fs2 =>
      replacePhase cfg mod fs2

/-- Model of `CopyDependencies`: when the base path does not end in
"/vendor" and the `Replace` slice is nil, stat the build manifest (fatal on
error) and the base path; if the base path exists and is strictly newer than
the manifest, return with no mutation; otherwise run the body. -/
def copyDependenciesM (cfg : RunCfg) (mod : GoMod) (deps : List Dep) (fs : Fs) : Option Fs :=
  if !(goHasSuffix (renderAbs cfg.base) "/vendor") && mod.replace.isNone then
    match cfg.goModTime with
    | none => none
    | some tg =>
      match cfg.baseTime with
      | none => runBody cfg mod deps fs
      | some tb => if tg < tb then some fs else runBody cfg mod deps fs
  else runBody cfg mod deps fs

/-! ### Filter matching -/

/-- Whether `pat` occurs as a contiguous run inside `l`. -/
def listIsInfixOf : List Char → List Char → Bool
  | pat, [] => pat.isEmpty
  | pat, c :: rest => pat.isPrefixOf (c :: rest) || listIsInfixOf pat rest

/-- Semantics of `regexp.MatchString` for a metacharacter-free pattern:
unanchored substring-anywhere matching. -/
def literalMatch (pat s : String) : Bool :=
  listIsInfixOf pat.data s.data

/-! ### C1: the staleness check -/

/-- C1 counterexample: with the check enabled (base path not ending in
"/vendor", nil `Replace`), the destination existing, and its modification
time EQUAL to the manifest's, the claim predicts a no-op, but the run
proceeds and mutates the filesystem (the reset wipes a file under the base). -/
theorem c1_counterexample :
    goHasSuffix (renderAbs (["w", "v"] : FPath)) "/vendor" = false ∧
    (⟨none⟩ : GoMod).replace = none ∧
    (⟨["w", "v"], ["w"], none, some 5, some 5⟩ : RunCfg).baseTime =
      (⟨["w", "v"], ["w"], none, some 5, some 5⟩ : RunCfg).goModTime ∧
    copyDependenciesM ⟨["w", "v"], ["w"], none, some 5, some 5⟩ ⟨none⟩ []
        [(["w"], .dir), (["w", "v"], .dir), (["w", "v", "x"], .file "f")] ≠
      some [(["w"], .dir), (["w", "v"], .dir), (["w", "v", "x"], .file "f")] := by
  refine ⟨by decide, rfl, rfl, ?_⟩
  decide

/-- C1 (amended): with the staleness check enabled, the run is a no-op iff
the destination root exists and its modification time is STRICTLY newer than
the build manifest's; on an equal or older time, or an absent destination,
the run proceeds as stale (executes the body). -/
theorem c1_staleness (cfg : RunCfg) (mod : GoMod) (deps : List Dep) (fs : Fs)
    (henabled : goHasSuffix (renderAbs cfg.base) "/vendor" = false)
    (hrep : mod.replace = none) :
    (∀ tg tb, cfg.goModTime = some tg → cfg.baseTime = some tb →
      (tg < tb → copyDependenciesM cfg mod deps fs = some fs) ∧
      (tb ≤ tg → copyDependenciesM cfg mod deps fs = runBody cfg mod deps fs)) ∧
    (cfg.baseTime = none → ∀ tg, cfg.goModTime = some tg →
      copyDependenciesM cfg mod deps fs = runBody cfg mod deps fs) := by
  constructor
  · intro tg tb hg hb
    constructor
    · intro hlt
      rw [copyDependenciesM, henabled, hrep, hg, hb]
      simp [hlt]
    · intro hle
      rw [copyDependenciesM, henabled, hrep, hg, hb]
      simp [Nat.not_lt.mpr hle]
  · intro hb tg hg
    rw [copyDependenciesM, henabled, hrep, hg, hb]
    simp

/-- Witness for `c1_staleness` at a concrete configuration: strictly newer
destination yields a no-op. -/
theorem c1_staleness_witness :
    copyDependenciesM ⟨["w", "v"], ["w"], none, some 3, some 5⟩ ⟨none⟩ []
        [(["w"], .dir)] = some [(["w"], .dir)] :=
  ((c1_staleness ⟨["w", "v"], ["w"], none, some 3, some 5⟩ ⟨none⟩ []
      [(["w"], .dir)] (by decide) rfl).1 3 5 rfl rfl).1 (by decide)

/-! ### C7: the strict-subdirectory construction check -/

/-- Model of the construction check of `InitVendorDir`: the output path must
differ from the working directory and have it as a string prefix
(`basePath == wd || !strings.HasPrefix(basePath, wd)` is fatal). -/
def subdirCheck (basePath wd : String) : Bool :=
  !(basePath == wd) && goHasPrefix basePath wd

/-- Model of the fatal gate of `InitVendorDir`: `none` is the fatal outcome. -/
def initVendorDirM (basePath wd : String) : Option Unit :=
  if subdirCheck basePath wd then some () else none

/-- Whether `basePath` names a strict subdirectory of `wd`: it extends
`wd ++ "/"` by at least one character. -/
def isStrictSubdir (basePath wd : String) : Bool :=
  (wd.data ++ ['/']).isPrefixOf basePath.data &&
    decide (wd.data.length + 1 < basePath.data.length)

/-- C7 counterexample: `/a/bc` is not a strict subdirectory of the working
directory `/a/b`, yet construction passes the check (no fatal error),
because the check is a string-prefix test. -/
theorem c7_counterexample :
    isStrictSubdir "/a/bc" "/a/b" = false ∧ initVendorDirM "/a/bc" "/a/b" = some () := by
  constructor <;> decide

/-- C7 (amended): construction fails fatally iff the destination equals the
working directory or does not have it as a string prefix; every strict
subdirectory passes the check, but so do sibling paths sharing a string
prefix. -/
theorem c7_subdir_check (basePath wd : String) :
    (isStrictSubdir basePath wd = true → initVendorDirM basePath wd = some ()) ∧
    (initVendorDirM basePath wd = none ↔
      (basePath = wd ∨ goHasPrefix basePath wd = false)) := by
  constructor
  · intro h
    rw [isStrictSubdir, Bool.and_eq_true, decide_eq_true_eq] at h
    obtain ⟨hpre, hlen⟩ := h
    have hpre' : (wd.data ++ ['/']) <+: basePath.data := (isPrefixOf_eq _ _).mp hpre
    have hwd : wd.data <+: basePath.data :=
      List.IsPrefix.trans ⟨['/'], rfl⟩ hpre'
    have hne : basePath ≠ wd := by
      intro heq
      subst heq
      have := hpre'.length_le
      simp only [List.length_append, List.length_cons, List.length_nil] at this
      omega
    have hcheck : subdirCheck basePath wd = true := by
      simp [subdirCheck, goHasPrefix, isPrefixOf_eq _ _, hwd, hne]
    rw [initVendorDirM, hcheck]
    simp
  · rw [initVendorDirM, subdirCheck]
    constructor
    · intro h
      split at h
      · cases h
      · rename_i hc
        rw [Bool.and_eq_true, Bool.not_eq_eq_eq_not, Bool.not_true, beq_eq_false_iff_ne] at hc
        by_cases heq : basePath = wd
        · exact Or.inl heq
        · refine Or.inr ?_
          rcases Bool.eq_false_or_eq_true (goHasPrefix basePath wd) with hg | hg
          · exact absurd ⟨heq, hg⟩ hc
          · exact hg
    · intro h
      rcases h with h | h
      · subst h
        simp
      · simp [h]

/-- Witness for `c7_subdir_check`: the strict subdirectory `/a/b/c` of
`/a/b` passes the construction check. -/
theorem c7_subdir_check_witness : initVendorDirM "/a/b/c" "/a/b" = some () :=
  (c7_subdir_check "/a/b/c" "/a/b").1 (by decide)

/-! ### C3: the ancestor-pruning walk -/

theorem chainList_cons (segs : List String) (h : segs ≠ []) :
    chainList segs = segs :: chainList segs.dropLast := by
  obtain ⟨m, hm⟩ : ∃ m, segs.length = m + 1 := by
    cases segs with
    | nil => exact absurd rfl h
    | cons a l => exact ⟨l.length, rfl⟩
  rw [chainList, chainList, hm, List.range_succ, List.reverse_append,
    List.reverse_singleton, List.singleton_append, List.map_cons]
  congr 1
  · rw [← hm, List.take_length]
  · rw [List.length_dropLast, hm]
    simp only [Nat.add_sub_cancel]
    apply List.map_congr_left
    intro i hi
    rw [List.mem_reverse, List.mem_range] at hi
    rw [List.dropLast_eq_take, List.take_take, hm]
    simp only [Nat.add_sub_cancel]
    rw [min_eq_left (by omega)]

theorem pruneLoopGo_trace_sub {σ : Type} (rm : σ → List String → σ × RmRes)
    (ps : List (List String)) :
    ∀ st, ∀ p ∈ (pruneLoopGo rm st ps).2, p ∈ ps := by
  induction ps with
  | nil => intro st p hp; simp [pruneLoopGo] at hp
  | cons a rest ih =>
    intro st p hp
    rw [pruneLoopGo] at hp
    match hrm : rm st a with
    | (st1, .ok) =>
      rw [hrm] at hp
      simp only [List.mem_cons] at hp
      rcases hp with hp | hp
      · simp [hp]
      · exact List.mem_cons_of_mem _ (ih st1 p hp)
    | (st1, .enoent) =>
      rw [hrm] at hp
      simp only [List.mem_cons] at hp
      rcases hp with hp | hp
      · simp [hp]
      · exact List.mem_cons_of_mem _ (ih st1 p hp)
    | (st1, .enotempty) =>
      rw [hrm] at hp
      simp only [List.mem_singleton] at hp
      simp [hp]
    | (st1, .other) =>
      rw [hrm] at hp
      simp only [List.mem_singleton] at hp
      simp [hp]

theorem mem_chainList (segs p : List String) (h : p ∈ chainList segs) :
    ∃ i, i < segs.length ∧ p = segs.take (i + 1) := by
  rw [chainList] at h
  obtain ⟨i, hi, hp⟩ := List.mem_map.mp h
  rw [List.mem_reverse, List.mem_range] at hi
  exact ⟨i, hi, hp.symm⟩

/-- C3: the ancestor-pruning walk for a dependency whose copy returned false
with an active filter: a missing directory (ENOENT) continues the walk at the
parent, the first non-empty directory (ENOTEMPTY) stops the walk at once, any
other removal failure is fatal, and the vendor root itself (the join of the
base path with the "." marker) is never an attempted removal target. -/
theorem c3_prune_walk {σ : Type} (rm : σ → List String → σ × RmRes)
    (st : σ) (segs : List String) :
    (segs ≠ [] → ∀ st1,
      (rm st segs = (st1, .enoent) →
        pruneLoop rm st segs =
          ((pruneLoop rm st1 segs.dropLast).1, segs :: (pruneLoop rm st1 segs.dropLast).2)) ∧
      (rm st segs = (st1, .enotempty) → pruneLoop rm st segs = (some st1, [segs])) ∧
      (rm st segs = (st1, .other) → pruneLoop rm st segs = (none, [segs]))) ∧
    ([] ∉ (pruneLoop rm st segs).2) ∧
    (∀ base, (∀ s ∈ segs, s ≠ "." ∧ s ≠ "..") →
      ∀ p ∈ (pruneLoop rm st segs).2, vendPath base p ≠ base) := by
  have htr : ∀ p ∈ (pruneLoop rm st segs).2, ∃ i, i < segs.length ∧ p = segs.take (i + 1) := by
    intro p hp
    exact mem_chainList segs p (pruneLoopGo_trace_sub rm (chainList segs) st p hp)
  refine ⟨?_, ?_, ?_⟩
  · intro hne st1
    refine ⟨?_, ?_, ?_⟩
    · intro hrm
      rw [pruneLoop, pruneLoop, chainList_cons segs hne, pruneLoopGo, hrm]
    · intro hrm
      rw [pruneLoop, chainList_cons segs hne, pruneLoopGo, hrm]
    · intro hrm
      rw [pruneLoop, chainList_cons segs hne, pruneLoopGo, hrm]
  · intro hmem
    obtain ⟨i, hi, hp⟩ := htr [] hmem
    have : ([] : List String).length = (segs.take (i + 1)).length := by rw [hp]
    rw [List.length_take, List.length_nil] at this
    omega
  · intro base hclean p hp
    obtain ⟨i, hi, hp⟩ := htr p hp
    have hpclean : ∀ s ∈ p, s ≠ "." ∧ s ≠ ".." := by
      intro s hs
      exact hclean s (List.take_subset _ _ (hp ▸ hs))
    rw [vendPath_clean p base hpclean]
    intro heq
    have : base.length + p.length = base.length := by
      conv_rhs => rw [← heq]
      rw [List.length_append]
    have hplen : p.length = 0 := by omega
    rw [hp, List.length_take] at hplen
    omega

/-- Witness for `c3_prune_walk`: a removal primitive that reports ENOTEMPTY
on the two-segment path stops the walk there at once. -/
theorem c3_prune_walk_witness :
    pruneLoop (fun (st : Nat) p => (st + 1, if p.length = 2 then .enotempty else .enoent))
      0 ["a", "b"] = (some 1, [["a", "b"]]) :=
  (((c3_prune_walk (fun (st : Nat) p => (st + 1, if p.length = 2 then .enotempty else .enoent))
      0 ["a", "b"]).1 (by decide) 1).2.1 (by decide))

/-! ### C10: termination of the pruning loop's parent chain -/

/-- Model of `filepath.Dir` on a cleaned path: drop the last segment; the
parents of the rooted empty path ("/") and of the relative empty path (".")
are themselves. -/
def fdir (p : GoPath) : GoPath :=
  match p.segs with
  | [] => p
  | _ :: _ => ⟨p.rooted, p.segs.dropLast⟩

/-- The "." stop marker of the pruning loop. -/
def dotPath : GoPath := ⟨false, []⟩

/-- Whether iterating `filepath.Dir` from `p` reaches the "." loop guard
within `fuel` steps — the loop `for p := d.Path; p != "."; p = filepath.Dir(p)`
terminates only by reaching this guard (or by an early break). -/
def chainReachesDot : Nat → GoPath → Bool
  | 0, _ => false
  | n + 1, p => if p = dotPath then true else chainReachesDot n (fdir p)

theorem chainReachesDot_rel (n : Nat) :
    ∀ segs : List String, segs.length ≤ n → chainReachesDot (n + 1) ⟨false, segs⟩ = true := by
  induction n with
  | zero =>
    intro segs hlen
    have : segs = [] := List.eq_nil_of_length_eq_zero (Nat.le_zero.mp hlen)
    subst this
    rfl
  | succ n ih =>
    intro segs hlen
    by_cases hnil : segs = []
    · subst hnil
      rfl
    · rw [chainReachesDot]
      have hne : (⟨false, segs⟩ : GoPath) ≠ dotPath := by
        intro h
        rw [dotPath] at h
        cases h
        exact hnil rfl
      rw [if_neg hne]
      match hsegs : segs with
      | a :: rest =>
        have : fdir ⟨false, a :: rest⟩ = ⟨false, (a :: rest).dropLast⟩ := rfl
        rw [this]
        apply ih
        rw [List.length_dropLast]
        simp only [List.length_cons] at hlen ⊢
        omega

theorem chainReachesDot_rooted (fuel : Nat) :
    ∀ segs : List String, chainReachesDot fuel ⟨true, segs⟩ = false := by
  induction fuel with
  | zero => intro segs; rfl
  | succ n ih =>
    intro segs
    rw [chainReachesDot]
    have hne : (⟨true, segs⟩ : GoPath) ≠ dotPath := by
      intro h
      rw [dotPath] at h
      cases h
    rw [if_neg hne]
    match segs with
    | [] => exact ih []
    | a :: rest => exact ih (a :: rest).dropLast

/-- C10: for a non-empty relative dependency path, the parent chain reaches
the "." stop marker within one step per segment, so the pruning loop
terminates; for a rooted path, no amount of fuel reaches "." (the parent of
"/" is "/"), so the loop's guard never fires and termination is not
guaranteed. -/
theorem c10_prune_termination :
    (∀ segs : List String, segs ≠ [] →
      chainReachesDot (segs.length + 1) ⟨false, segs⟩ = true) ∧
    (∀ (fuel : Nat) (segs : List String), chainReachesDot fuel ⟨true, segs⟩ = false) := by
  constructor
  · intro segs _
    exact chainReachesDot_rel segs.length segs le_rfl
  · intro fuel segs
    exact chainReachesDot_rooted fuel segs

/-- Witness for `c10_prune_termination` at a one-segment relative path and a
rooted path. -/
theorem c10_prune_termination_witness :
    chainReachesDot 2 ⟨false, ["a"]⟩ = true ∧ chainReachesDot 5 ⟨true, ["a"]⟩ = false :=
  ⟨c10_prune_termination.1 ["a"] (by decide), c10_prune_termination.2 5 ["a"]⟩

/-! ### C9: path containment -/

/-- C9 counterexample: a redirection rule whose new path contains ".."
makes the engine remove `/a/c`, which is NOT under the vendor root `/a/b`;
the rendered length of the removed path is not shorter than the root's, so
the removal guard does not fire. -/
theorem c9_counterexample :
    (["a", "b"] : FPath).isPrefixOf ["a", "c"] = false ∧
    lookupFs [(["a"], .dir), (["a", "b"], .dir), (["a", "c"], .dir),
      (["a", "c", "f"], .file "z")] ["a", "c"] = some .dir ∧
    (copyDependenciesM ⟨["a", "b"], ["a"], none, some 0, none⟩
        ⟨some [⟨⟨false, ["o"]⟩, ⟨false, ["..", "c"]⟩⟩]⟩ []
        [(["a"], .dir), (["a", "b"], .dir), (["a", "c"], .dir),
          (["a", "c", "f"], .file "z")]).map
      (fun f => (lookupFs f ["a", "c"]).isSome) = some false := by
  refine ⟨by decide, by decide, ?_⟩
  decide

/-- C9 (amended): destination paths are the join of the root with the given
path; when that path is a clean relative path (no "." or ".." segments) the
join is plain concatenation and the result lies under the root.  The
recursive-removal wrapper fatally refuses exactly the paths whose rendered
string is byte-shorter than the root's; paths rewritten by ".." segments can
escape the root without tripping that guard. -/
theorem c9_path_containment (base : FPath) (p : List String) (fs : Fs) :
    ((∀ s ∈ p, s ≠ "." ∧ s ≠ "..") →
      vendPath base p = base ++ p ∧ base <+: vendPath base p) ∧
    ((renderAbs p).length < (renderAbs base).length → removeAllM base fs p = none) := by
  constructor
  · intro h
    refine ⟨vendPath_clean p base h, ?_⟩
    rw [vendPath_clean p base h]
    exact ⟨p, rfl⟩
  · intro h
    rw [removeAllM, if_pos h]

/-- Witness for `c9_path_containment` at a concrete clean path and a
concrete too-short path. -/
theorem c9_path_containment_witness :
    vendPath ["a", "b"] ["x", "y"] = ["a", "b", "x", "y"] ∧
    removeAllM ["a", "b"] [] ["a"] = none :=
  ⟨((c9_path_containment ["a", "b"] ["x", "y"] []).1 (by decide)).1,
   (c9_path_containment ["a", "b"] ["a"] []).2 (by decide)⟩

/-! ### C4: redirection rules -/

/-- C4: each redirection rule with equal sides is a no-op; with distinct
sides, when the vendored new path exists, its contents are copied to the
vendored old path and the new path is then removed entirely (nothing at or
below it survives); when it does not exist, the rule copies from the
resolved external location straight to the vendored old path.  The rules run
only after the reset and all dependency copies, in table order. -/
theorem c4_redirection (cfg : RunCfg) (fs : Fs) (r : ReplRule) :
    (r.old = r.new → applyReplace cfg fs r = some fs) ∧
    (r.old ≠ r.new → existsStat fs (vendPath cfg.base r.new.segs) = true →
      applyReplace cfg fs r =
        (copyM cfg.filt (fsFuel fs) fs (vendPath cfg.base r.new.segs)
            (vendPath cfg.base r.old.segs)).bind
          (fun r1 => removeAllM cfg.base r1.1 (vendPath cfg.base r.new.segs)) ∧
      (∀ fs', applyReplace cfg fs r = some fs' →
        ∀ q, vendPath cfg.base r.new.segs <+: q → lookupFs fs' q = none)) ∧
    (r.old ≠ r.new → existsStat fs (vendPath cfg.base r.new.segs) = false →
      applyReplace cfg fs r =
        (copyM cfg.filt (fsFuel fs) fs (resolvePath cfg.cwd r.new)
          (vendPath cfg.base r.old.segs)).map (·.1)) ∧
    (∀ (mod : GoMod) (deps : List Dep),
      runBody cfg mod deps fs =
        (clearM cfg.base fs).bind fun fs1 =>
          (depsPhase cfg deps fs1).bind fun fs2 => replacePhase cfg mod fs2) ∧
    (∀ (rs : List ReplRule) (f : Fs),
      replacePhase cfg ⟨some (r :: rs)⟩ f =
        (applyReplace cfg f r).bind fun f1 => replacePhase cfg ⟨some rs⟩ f1) := by
  refine ⟨?_, ?_, ?_, ?_, ?_⟩
  · intro h
    rw [applyReplace, if_pos h]
  · intro hne hex
    constructor
    · rw [applyReplace, if_neg hne]
      simp only [hex, if_pos]

    · intro fs' h q hq
      rw [applyReplace, if_neg hne] at h
      simp only [hex, if_pos] at h
      match hcp : copyM cfg.filt (fsFuel fs) fs (vendPath cfg.base r.new.segs)
          (vendPath cfg.base r.old.segs) with
      | none => rw [hcp] at h; cases h
      | some r1 =>
        rw [hcp] at h
        simp only [Option.some_bind] at h
        rw [removeAllM] at h
        split at h
        · cases h
        · simp only [Option.some.injEq] at h
          subst h
          rw [lookup_removeAllFs, if_pos hq]
  · intro hne hnex
    rw [applyReplace, if_neg hne]
    simp only [hnex]
    rw [if_neg (by simp)]
  · intro mod deps
    rfl
  · intro rs f
    simp only [replacePhase, List.foldlM_cons]
    rfl

/-- Witness for `c4_redirection`: a rule whose two sides are equal is a
no-op on a concrete filesystem. -/
theorem c4_redirection_witness :
    applyReplace ⟨["a", "b"], ["a"], none, some 0, none⟩ [(["a"], .dir)]
      ⟨⟨false, ["m"]⟩, ⟨false, ["m"]⟩⟩ = some [(["a"], .dir)] :=
  (c4_redirection ⟨["a", "b"], ["a"], none, some 0, none⟩ [(["a"], .dir)]
    ⟨⟨false, ["m"]⟩, ⟨false, ["m"]⟩⟩).1 rfl

/-! ### C6: the file filter -/

/-- Render a destination-relative path ("a/b.go", no leading slash). -/
def renderRel (p : FPath) : String :=
  String.intercalate "/" p

/-- C6 counterexample: with the literal pattern "myvendor" and the vendor
root `/home/me/myvendor`, the file at relative path `a.go` IS copied (the
code matches the pattern against the full destination path, whose root
segment contains "myvendor") although the destination-relative path does not
satisfy the pattern. -/
theorem c6_counterexample :
    literalMatch "myvendor" (renderRel ["a.go"]) = false ∧
    (copyNode (some (literalMatch "myvendor")) (.file "x")
        (vendPath ["home", "me", "myvendor"] ["a.go"])
        [(["home"], .dir), (["home", "me"], .dir), (["home", "me", "myvendor"], .dir)]).map
      (·.2) = some true := by
  constructor <;> decide

/-- C6 (amended): with no filter configured a regular file is always copied;
with a filter configured it is copied iff the matcher accepts the rendered
FULL destination path (vendor root included); a rejected file leaves the
filesystem untouched (in particular, no directory is created for it). -/
theorem c6_file_filter (m : String → Bool) (c : String) (dest : FPath) (fs : Fs) :
    (copyNode none (.file c) dest fs = (copyFileM fs c dest).map (fun f => (f, true))) ∧
    (m (renderAbs dest) = true →
      copyNode (some m) (.file c) dest fs = (copyFileM fs c dest).map (fun f => (f, true))) ∧
    (m (renderAbs dest) = false →
      copyNode (some m) (.file c) dest fs = some (fs, false)) := by
  refine ⟨rfl, ?_, ?_⟩
  · intro hm
    simp only [copyNode, hm, if_pos]
  · intro hm
    simp only [copyNode, hm]
    rw [if_neg (by simp)]

/-- Witness for `c6_file_filter`: a matcher accepting everything copies a
concrete file; a matcher refusing everything leaves the filesystem as it
was. -/
theorem c6_file_filter_witness :
    copyNode (some (fun _ => true)) (.file "x") (["v", "f"] : FPath) [(["v"], .dir)] =
      (copyFileM [(["v"], .dir)] "x" ["v", "f"]).map (fun f => (f, true)) ∧
    copyNode (some (fun _ => false)) (.file "x") (["v", "f"] : FPath) [(["v"], .dir)] =
      some ([(["v"], .dir)], false) :=
  ⟨(c6_file_filter (fun _ => true) "x" ["v", "f"] [(["v"], .dir)]).2.1 rfl,
   (c6_file_filter (fun _ => false) "x" ["v", "f"] [(["v"], .dir)]).2.2 rfl⟩

/-! ### Helper lemmas for the copier's effects -/

theorem removeFs_ok (fs : Fs) (p : FPath) (f : Fs) (h : removeFs fs p = .ok f) :
    f = eraseKey fs p := by
  match hl : lookupFs fs p with
  | none =>
    simp only [removeFs, hl] at h
    cases h
  | some .dir =>
    simp only [removeFs, hl] at h
    split at h
    · cases h
    · injection h with h2
      exact h2.symm
  | some (.file c) =>
    simp only [removeFs, hl] at h
    injection h with h2
    exact h2.symm
  | some .symlink =>
    simp only [removeFs, hl] at h
    injection h with h2
    exact h2.symm

/-- Compose two "unchanged or filled as a directory" steps. -/
theorem ancStep {A B C : Option Node}
    (h1 : B = A ∨ (A = none ∧ B = some .dir))
    (h2 : C = B ∨ (B = none ∧ C = some .dir)) :
    C = A ∨ (A = none ∧ C = some .dir) := by
  rcases h1 with h1 | ⟨ha, hb⟩
  · rcases h2 with h2 | ⟨hb, hc⟩
    · exact Or.inl (h2.trans h1)
    · exact Or.inr ⟨h1 ▸ hb, hc⟩
  · rcases h2 with h2 | ⟨hb2, hc⟩
    · exact Or.inr ⟨ha, h2.trans hb⟩
    · rw [hb] at hb2; cases hb2

theorem prefix_dropLast_of_proper {q dest : FPath} (hq : q <+: dest) (hne : q ≠ dest) :
    q <+: dest.dropLast := by
  have hlt : q.length < dest.length := by
    rcases Nat.lt_or_ge q.length dest.length with h | h
    · exact h
    · exact absurd (hq.eq_of_length_le h) hne
  exact List.prefix_of_prefix_length_le hq (dropLast_isPre dest)
    (by rw [List.length_dropLast]; omega)

theorem copyFileM_effects (fs : Fs) (c : String) (dest : FPath) (fs' : Fs)
    (h : copyFileM fs c dest = some fs') :
    lookupFs fs' dest = some (.file c) ∧
    (∀ q, q ≠ dest → ¬ q <+: dest → lookupFs fs' q = lookupFs fs q) ∧
    (∀ q, q <+: dest → q ≠ dest →
      lookupFs fs' q = lookupFs fs q ∨ (lookupFs fs q = none ∧ lookupFs fs' q = some .dir)) := by
  rw [copyFileM] at h
  match hmk : mkdirAllFs fs dest.dropLast with
  | none => rw [hmk] at h; cases h
  | some fs1 =>
    rw [hmk] at h
    simp only [Option.some_bind] at h
    have hfs' : fs' = setEntry fs1 dest (.file c) := by
      match hl : lookupFs fs1 dest with
      | some .dir => rw [hl] at h; cases h
      | none =>
        rw [hl] at h
        simp only [Option.some.injEq] at h
        exact h.symm
      | some (.file d) =>
        rw [hl] at h
        simp only [Option.some.injEq] at h
        exact h.symm
      | some .symlink =>
        rw [hl] at h
        simp only [Option.some.injEq] at h
        exact h.symm
    subst hfs'
    refine ⟨by rw [lookup_setEntry, if_pos rfl], ?_, ?_⟩
    · intro q hne hnpre
      rw [lookup_setEntry, if_neg hne]
      rcases mkdirAll_touch fs dest.dropLast fs1 hmk q with h1 | ⟨_, _, _, h4⟩
      · exact h1
      · exact absurd (h4.trans (dropLast_isPre dest)) hnpre
    · intro q hpre hne
      rw [lookup_setEntry, if_neg hne]
      rcases mkdirAll_touch fs dest.dropLast fs1 hmk q with h1 | ⟨h1, h2, _, _⟩
      · exact Or.inl h1
      · exact Or.inr ⟨h1, h2⟩

theorem not_prefix_snoc_of_incomp {q dest : FPath} {nm : String}
    (hqd : ¬ q <+: dest) (hdq : ¬ dest <+: q) : ¬ q <+: dest ++ [nm] := by
  intro h
  rcases List.prefix_concat_iff.mp h with h | h
  · subst h
    exact hdq ⟨[nm], rfl⟩
  · exact hqd h

theorem not_snoc_prefix_of_incomp {q dest : FPath} {nm : String}
    (hdq : ¬ dest <+: q) : ¬ dest ++ [nm] <+: q := by
  intro h
  exact hdq (List.IsPrefix.trans ⟨[nm], rfl⟩ h)

mutual

theorem copyNode_effects (filt : Option (String → Bool)) (t : FTree) :
    ∀ (dest : FPath) (fs fs' : Fs) (b : Bool), copyNode filt t dest fs = some (fs', b) →
      (∀ q, ¬ q <+: dest → ¬ dest <+: q → lookupFs fs' q = lookupFs fs q) ∧
      (∀ q, q <+: dest → q ≠ dest →
        lookupFs fs' q = lookupFs fs q ∨ (lookupFs fs q = none ∧ lookupFs fs' q = some .dir)) ∧
      (∀ q, lookupFs fs' q = some .symlink → lookupFs fs q = some .symlink) ∧
      (filt.isSome = true → b = false →
        (∀ q, dest <+: q → lookupFs fs q = none) →
        ∀ q, dest <+: q → lookupFs fs' q = none) := by
  match t with
  | .symlink =>
    intro dest fs fs' b h
    simp only [copyNode, Option.some.injEq, Prod.mk.injEq] at h
    obtain ⟨h1, h2⟩ := h
    subst h1
    subst h2
    exact ⟨fun q _ _ => rfl, fun q _ _ => Or.inl rfl, fun q hq => hq,
      fun _ _ pre q hq => pre q hq⟩
  | .file c =>
    intro dest fs fs' b h
    have hfile : ∀ f1, copyFileM fs c dest = some f1 → fs' = f1 → b = true →
        (∀ q, ¬ q <+: dest → ¬ dest <+: q → lookupFs fs' q = lookupFs fs q) ∧
        (∀ q, q <+: dest → q ≠ dest →
          lookupFs fs' q = lookupFs fs q ∨
            (lookupFs fs q = none ∧ lookupFs fs' q = some .dir)) ∧
        (∀ q, lookupFs fs' q = some .symlink → lookupFs fs q = some .symlink) ∧
        (filt.isSome = true → b = false →
          (∀ q, dest <+: q → lookupFs fs q = none) →
          ∀ q, dest <+: q → lookupFs fs' q = none) := by
      intro f1 hcf heq hbt
      subst heq
      obtain ⟨e1, e2, e3⟩ := copyFileM_effects fs c dest fs' hcf
      refine ⟨?_, e3, ?_, ?_⟩
      · intro q hq hd
        have hqne : q ≠ dest := fun he => hd (he ▸ List.prefix_refl _)
        exact e2 q hqne hq
      · intro q hsym
        by_cases hqd : q = dest
        · subst hqd
          rw [e1] at hsym
          cases hsym
        · by_cases hpre : q <+: dest
          · rcases e3 q hpre hqd with h1 | ⟨_, h2⟩
            · rw [← h1]; exact hsym
            · rw [h2] at hsym; cases hsym
          · rw [← e2 q hqd hpre]; exact hsym
      · intro _ hb
        rw [hbt] at hb
        cases hb
    match hf : filt with
    | none =>
      simp only [copyNode] at h
      match hcf : copyFileM fs c dest with
      | none => rw [hcf] at h; cases h
      | some f1 =>
        rw [hcf] at h
        simp only [Option.map_some', Option.some.injEq, Prod.mk.injEq] at h
        exact hfile f1 hcf h.1.symm h.2.symm
    | some m =>
      simp only [copyNode] at h
      by_cases hm : m (renderAbs dest) = true
      · rw [if_pos hm] at h
        match hcf : copyFileM fs c dest with
        | none => rw [hcf] at h; cases h
        | some f1 =>
          rw [hcf] at h
          simp only [Option.map_some', Option.some.injEq, Prod.mk.injEq] at h
          exact hfile f1 hcf h.1.symm h.2.symm
      · rw [if_neg hm] at h
        simp only [Option.some.injEq, Prod.mk.injEq] at h
        obtain ⟨h1, h2⟩ := h
        subst h1
        subst h2
        exact ⟨fun q _ _ => rfl, fun q _ _ => Or.inl rfl, fun q hq => hq,
          fun _ _ pre q hq => pre q hq⟩
  | .dir es =>
    intro dest fs fs' b h
    simp only [copyNode] at h
    match hmk : mkdirAllFs fs dest with
    | none => rw [hmk] at h; cases h
    | some fs1 =>
      rw [hmk] at h
      simp only [Option.some_bind] at h
      match hcc : copyChildren filt es dest fs1 with
      | none => rw [hcc] at h; cases h
      | some r =>
        obtain ⟨fs2, b2⟩ := r
        rw [hcc] at h
        simp only [Option.some_bind] at h
        have IH := copyChildren_effects filt es dest fs1 fs2 b2 hcc
        have MT := mkdirAll_touch fs dest fs1 hmk
        have MT2 : ∀ q, lookupFs fs1 q = lookupFs fs q ∨
            (lookupFs fs q = none ∧ lookupFs fs1 q = some .dir) := by
          intro q
          rcases MT q with h1 | ⟨h1, h2, _, _⟩
          · exact Or.inl h1
          · exact Or.inr ⟨h1, h2⟩
        have MTout : ∀ q, ¬ q <+: dest → lookupFs fs1 q = lookupFs fs q := by
          intro q hq
          rcases MT q with h1 | ⟨_, _, _, h4⟩
          · exact h1
          · exact absurd h4 hq
        by_cases hbr : (!b2 && filt.isSome) = true
        · rw [if_pos hbr] at h
          rw [Bool.and_eq_true] at hbr
          obtain ⟨hnb2, hfl⟩ := hbr
          have hb2 : b2 = false := by simpa using hnb2
          match hrf : removeFs fs2 dest with
          | .error e => rw [hrf] at h; cases h
          | .ok fs3 =>
            rw [hrf] at h
            simp only [Option.some.injEq, Prod.mk.injEq] at h
            obtain ⟨h1, h2⟩ := h
            subst h1
            subst h2
            have hfs3 : fs3 = eraseKey fs2 dest := removeFs_ok fs2 dest fs3 hrf
            subst hfs3
            refine ⟨?_, ?_, ?_, ?_⟩
            · intro q hq hd
              have hqne : q ≠ dest := fun he => hd (he ▸ List.prefix_refl _)
              rw [lookup_eraseKey, if_neg hqne, IH.1 q hq hd, MTout q hq]
            · intro q hpre hne
              rw [lookup_eraseKey, if_neg hne]
              exact ancStep (MT2 q) (IH.2.1 q hpre)
            · intro q hsym
              by_cases hqd : q = dest
              · rw [lookup_eraseKey, if_pos hqd] at hsym
                cases hsym
              · rw [lookup_eraseKey, if_neg hqd] at hsym
                have h1 := IH.2.2.1 q hsym
                rcases MT2 q with h2 | ⟨_, h2⟩
                · rw [← h2]; exact h1
                · rw [h2] at h1; cases h1
            · intro _ _ pre q hq
              by_cases hqd : q = dest
              · rw [lookup_eraseKey, if_pos hqd]
              · rw [lookup_eraseKey, if_neg hqd]
                have pre1 : ∀ q2, dest <+: q2 → q2 ≠ dest → lookupFs fs1 q2 = none := by
                  intro q2 hq2 hne2
                  have hnp : ¬ q2 <+: dest := by
                    intro hp
                    exact hne2 (hp.eq_of_length_le hq2.length_le)
                  rw [MTout q2 hnp]
                  exact pre q2 hq2
                exact IH.2.2.2 hfl hb2 pre1 q hq hqd
        · rw [if_neg hbr] at h
          simp only [Option.some.injEq, Prod.mk.injEq] at h
          obtain ⟨h1, h2⟩ := h
          subst h1
          subst h2
          refine ⟨?_, ?_, ?_, ?_⟩
          · intro q hq hd
            rw [IH.1 q hq hd, MTout q hq]
          · intro q hpre _
            exact ancStep (MT2 q) (IH.2.1 q hpre)
          · intro q hsym
            have h1 := IH.2.2.1 q hsym
            rcases MT2 q with h2 | ⟨_, h2⟩
            · rw [← h2]; exact h1
            · rw [h2] at h1; cases h1
          · intro hfl hb _
            exfalso
            apply hbr
            rw [hb, hfl]
            rfl

theorem copyChildren_effects (filt : Option (String → Bool)) (es : FEntries) :
    ∀ (dest : FPath) (fs fs' : Fs) (b : Bool), copyChildren filt es dest fs = some (fs', b) →
      (∀ q, ¬ q <+: dest → ¬ dest <+: q → lookupFs fs' q = lookupFs fs q) ∧
      (∀ q, q <+: dest →
        lookupFs fs' q = lookupFs fs q ∨ (lookupFs fs q = none ∧ lookupFs fs' q = some .dir)) ∧
      (∀ q, lookupFs fs' q = some .symlink → lookupFs fs q = some .symlink) ∧
      (filt.isSome = true → b = false →
        (∀ q, dest <+: q → q ≠ dest → lookupFs fs q = none) →
        ∀ q, dest <+: q → q ≠ dest → lookupFs fs' q = none) := by
  match es with
  | .nil =>
    intro dest fs fs' b h
    simp only [copyChildren, Option.some.injEq, Prod.mk.injEq] at h
    obtain ⟨h1, h2⟩ := h
    subst h1
    subst h2
    exact ⟨fun q _ _ => rfl, fun q _ => Or.inl rfl, fun q hq => hq,
      fun _ _ pre q hq hne => pre q hq hne⟩
  | .cons nm t rest =>
    intro dest fs fs' b h
    simp only [copyChildren] at h
    match hcn : copyNode filt t (dest ++ [nm]) fs with
    | none => rw [hcn] at h; cases h
    | some r1 =>
      obtain ⟨fs1, b1⟩ := r1
      rw [hcn] at h
      simp only [Option.some_bind] at h
      match hcc : copyChildren filt rest dest fs1 with
      | none => rw [hcc] at h; cases h
      | some r2 =>
        obtain ⟨fs2, b2⟩ := r2
        rw [hcc] at h
        simp only [Option.some_bind, Option.some.injEq, Prod.mk.injEq] at h
        obtain ⟨h1, h2⟩ := h
        subst h1
        subst h2
        have IH1 := copyNode_effects filt t (dest ++ [nm]) fs fs1 b1 hcn
        have IH2 := copyChildren_effects filt rest dest fs1 fs2 b2 hcc
        refine ⟨?_, ?_, ?_, ?_⟩
        · intro q hq hd
          rw [IH2.1 q hq hd,
            IH1.1 q (not_prefix_snoc_of_incomp hq hd) (not_snoc_prefix_of_incomp hd)]
        · intro q hpre
          have hq1 : q <+: dest ++ [nm] := hpre.trans ⟨[nm], rfl⟩
          have hne1 : q ≠ dest ++ [nm] := by
            intro he
            have := hpre.length_le
            rw [he] at this
            simp at this
          exact ancStep (IH1.2.1 q hq1 hne1) (IH2.2.1 q hpre)
        · intro q hsym
          exact IH1.2.2.1 q (IH2.2.2.1 q hsym)
        · intro hfl hb pre q hq hne
          obtain ⟨hb1, hb2⟩ : b1 = false ∧ b2 = false := by simpa using hb
          have prechild : ∀ q2, dest ++ [nm] <+: q2 → lookupFs fs q2 = none := by
            intro q2 hq2
            have hd2 : dest <+: q2 := List.IsPrefix.trans ⟨[nm], rfl⟩ hq2
            have hne2 : q2 ≠ dest := by
              intro he
              have := hq2.length_le
              rw [he] at this
              simp at this
            exact pre q2 hd2 hne2
          have hchild := IH1.2.2.2 hfl hb1 prechild
          have pre1 : ∀ q2, dest <+: q2 → q2 ≠ dest → lookupFs fs1 q2 = none := by
            intro q2 hq2 hne2
            by_cases hu : dest ++ [nm] <+: q2
            · exact hchild q2 hu
            · have hnp : ¬ q2 <+: dest ++ [nm] := by
                intro hp
                rcases List.prefix_concat_iff.mp hp with heq | hpd
                · exact hu (heq ▸ List.prefix_refl _)
                · exact hne2 (hpd.eq_of_length_le hq2.length_le)
              rw [IH1.1 q2 hnp hu]
              exact pre q2 hq2 hne2
          exact IH2.2.2.2 hfl hb2 pre1 q hq hne

end

/-! ### C8: symbolic links -/

/-- C8: a symbolic-link source is skipped entirely (no filesystem change)
and reports false, and no copy ever creates a symbolic-link entry in the
destination filesystem that was not already there. -/
theorem c8_symlink_skip (filt : Option (String → Bool)) (dest : FPath) (fs : Fs) :
    copyNode filt .symlink dest fs = some (fs, false) ∧
    (∀ (t : FTree) (fs' : Fs) (b : Bool), copyNode filt t dest fs = some (fs', b) →
      ∀ q, lookupFs fs' q = some .symlink → lookupFs fs q = some .symlink) :=
  ⟨rfl, fun t fs' b h => (copyNode_effects filt t dest fs fs' b h).2.2.1⟩

/-- Witness for `c8_symlink_skip` at a concrete filesystem with a pre-existing
symbolic link, copying a symlink source. -/
theorem c8_symlink_skip_witness :
    lookupFs [((["s"] : FPath), Node.symlink)] ["s"] = some .symlink :=
  (c8_symlink_skip none ["v"] [(["s"], .symlink)]).2 .symlink [(["s"], .symlink)] false rfl
    ["s"] rfl

/-! ### C5: directory copying -/

/-- Mirror of the directory child loop that records each child's reported
boolean instead of only their disjunction (used to state "returns true iff
at least one child copy returned true"). -/
def childFlags (filt : Option (String → Bool)) : FEntries → FPath → Fs → Option (Fs × List Bool)
  | .nil, _, fs => some (fs, [])
  | .cons nm t rest, dest, fs =>
    (copyNode filt t (dest ++ [nm]) fs).bind fun r1 =>
      (childFlags filt rest dest r1.1).bind fun r2 => some (r2.1, r1.2 :: r2.2)

theorem copyChildren_flags (filt : Option (String → Bool)) :
    (es : FEntries) → ∀ dest fs, copyChildren filt es dest fs =
      (childFlags filt es dest fs).map fun r => (r.1, r.2.any id)
  | .nil => by
    intro dest fs
    simp [copyChildren, childFlags]
  | .cons nm t rest => by
    intro dest fs
    simp only [copyChildren, childFlags]
    match hcn : copyNode filt t (dest ++ [nm]) fs with
    | none => simp
    | some r1 =>
      simp only [Option.some_bind]
      rw [copyChildren_flags filt rest dest r1.1]
      match hcf : childFlags filt rest dest r1.1 with
      | none => simp
      | some r2 =>
        simp [List.any_cons]

/-- C5: the directory copy creates the destination directory (with its
ancestors) via `MkdirAll`, recurses into every entry, and returns true iff
at least one child copy returned true; when the destination was fresh (no
pre-existing content below it), a filtered copy where no child reported true
removes the destination directory — empty at that point — and leaves nothing
at or below it. -/
theorem c5_copy_directory (filt : Option (String → Bool)) (es : FEntries) (dest : FPath)
    (fs fs' : Fs) (b : Bool) (h : copyNode filt (.dir es) dest fs = some (fs', b)) :
    (∃ fs1, mkdirAllFs fs dest = some fs1 ∧
      ∃ r, childFlags filt es dest fs1 = some r ∧ b = r.2.any id) ∧
    (dest ≠ [] → (b = true ∨ filt = none) → lookupFs fs' dest = some .dir) ∧
    (filt.isSome = true → b = false →
      (∀ q, dest <+: q → q ≠ dest → lookupFs fs q = none) →
      lookupFs fs' dest = none ∧ ∀ q, dest <+: q → q ≠ dest → lookupFs fs' q = none) := by
  simp only [copyNode] at h
  match hmk : mkdirAllFs fs dest with
  | none => rw [hmk] at h; cases h
  | some fs1 =>
    rw [hmk] at h
    simp only [Option.some_bind] at h
    match hcc : copyChildren filt es dest fs1 with
    | none => rw [hcc] at h; cases h
    | some r =>
      obtain ⟨fs2, b2⟩ := r
      rw [hcc] at h
      simp only [Option.some_bind] at h
      have hflags : ∃ r, childFlags filt es dest fs1 = some r ∧ b2 = r.2.any id := by
        rw [copyChildren_flags filt es dest fs1] at hcc
        obtain ⟨r, hr, he⟩ := Option.map_eq_some'.mp hcc
        obtain ⟨he1, he2⟩ := Prod.mk.injEq .. ▸ he
        exact ⟨r, hr, he2.symm⟩
      have IH := copyChildren_effects filt es dest fs1 fs2 b2 hcc
      by_cases hbr : (!b2 && filt.isSome) = true
      · rw [if_pos hbr] at h
        rw [Bool.and_eq_true] at hbr
        obtain ⟨hnb2, hfl⟩ := hbr
        have hb2 : b2 = false := by simpa using hnb2
        match hrf : removeFs fs2 dest with
        | .error e => rw [hrf] at h; cases h
        | .ok fs3 =>
          rw [hrf] at h
          simp only [Option.some.injEq, Prod.mk.injEq] at h
          obtain ⟨h1, h2⟩ := h
          subst h1
          subst h2
          have hfs3 : fs3 = eraseKey fs2 dest := removeFs_ok fs2 dest fs3 hrf
          subst hfs3
          refine ⟨⟨fs1, rfl, ?_⟩, ?_, ?_⟩
          · obtain ⟨r, hr, he⟩ := hflags
            exact ⟨r, hr, hb2 ▸ he⟩
          · intro _ hor
            rcases hor with hb | hfn
            · cases hb
            · rw [hfn] at hfl
              cases hfl
          · intro _ _ pre
            constructor
            · rw [lookup_eraseKey, if_pos rfl]
            · intro q hq hne
              rw [lookup_eraseKey, if_neg hne]
              have pre1 : ∀ q2, dest <+: q2 → q2 ≠ dest → lookupFs fs1 q2 = none := by
                intro q2 hq2 hne2
                have hnp : ¬ q2 <+: dest := by
                  intro hp
                  exact hne2 (hp.eq_of_length_le hq2.length_le)
                rcases mkdirAll_touch fs dest fs1 hmk q2 with h1 | ⟨_, _, _, h4⟩
                · rw [h1]
                  exact pre q2 hq2 hne2
                · exact absurd h4 hnp
              exact IH.2.2.2 hfl hb2 pre1 q hq hne
      · rw [if_neg hbr] at h
        simp only [Option.some.injEq, Prod.mk.injEq] at h
        obtain ⟨h1, h2⟩ := h
        subst h1
        subst h2
        refine ⟨⟨fs1, rfl, hflags⟩, ?_, ?_⟩
        · intro hdne _
          have hdir : lookupFs fs1 dest = some .dir := mkdirAll_lookup_self fs dest fs1 hdne hmk
          rcases IH.2.1 dest (List.prefix_refl dest) with h1 | ⟨h1, _⟩
          · rw [h1, hdir]
          · rw [hdir] at h1
            cases h1
        · intro hfl hb _
          exfalso
          apply hbr
          rw [hb, hfl]
          rfl

/-- Witness for `c5_copy_directory`: copying a directory with one file and no
filter creates the destination directory on a concrete filesystem. -/
theorem c5_copy_directory_witness :
    lookupFs (((copyNode none (.dir (.cons "f" (.file "x") .nil)) ["v", "d"]
      [(["v"], .dir)]).getD ([], false)).1) ["v", "d"] = some .dir :=
  (c5_copy_directory none (.cons "f" (.file "x") .nil) ["v", "d"] [(["v"], .dir)]
    (((copyNode none (.dir (.cons "f" (.file "x") .nil)) ["v", "d"]
      [(["v"], .dir)]).getD ([], false)).1)
    (((copyNode none (.dir (.cons "f" (.file "x") .nil)) ["v", "d"]
      [(["v"], .dir)]).getD ([], false)).2)
    rfl).2.1 (by decide) (Or.inr rfl)

end Vend
